import Mathlib

/-!
Shallow embedding of the first-fit coalescing free-list heap allocator in
`src/lib/heap/heap.c` (the `lk` kernel heap).

Addresses and sizes are modelled as `Nat`.  The target is 32-bit (the C code
casts addresses through `unsigned`), so `sizeof(void *) = 4`,
`sizeof(struct free_heap_chunk) = 12` (two list-node pointers plus a
`size_t`) and `sizeof(struct alloc_struct_begin) = 12` (`unsigned int`
magic, `void *ptr`, `size_t size`).  A free chunk lives at the start of the
span it describes, so a chunk is modelled by its base address and its
length; the doubly linked free list is modelled as the `List` of chunks in
list order.  The claims under verification all presuppose arithmetic that
stays below `2 ^ 32`, so `Nat` arithmetic coincides with the C `size_t` /
`addr_t` arithmetic on them.
-/

/-- sizeof(void *) on the 32-bit target. -/
def sizeof_ptr : Nat := 4

/-- sizeof(struct free_heap_chunk): a struct list_node (two pointers) plus a size_t. -/
def sizeof_free_heap_chunk : Nat := 12

/-- sizeof(struct alloc_struct_begin): unsigned int magic, void *ptr, size_t size. -/
def sizeof_alloc_struct_begin : Nat := 12

/-- HEAP_MAGIC, the multi-character constant 'HEAP'. -/
def HEAP_MAGIC : Nat := 0x48454150

/-- ROUNDUP(a, b) from heap.c, `((a) + ((b)-1)) & ~((b)-1)`.  For the
power-of-two `b` the code uses it with, masking the low bits off equals
subtracting the remainder, so we model it arithmetically. -/
def ROUNDUP (a b : Nat) : Nat := (a + (b - 1)) - (a + (b - 1)) % b

/-- struct free_heap_chunk, identified with the span it heads: its base
address (the chunk pointer itself) and its `len` field. -/
structure free_heap_chunk where
  base : Nat
  len : Nat
deriving DecidableEq, Repr

/-- struct alloc_struct_begin, the header written just before every live
allocation: the magic word, the span base `ptr` and the span length `size`. -/
structure alloc_struct_begin where
  magic : Nat
  ptr : Nat
  size : Nat
deriving DecidableEq, Repr

/-- struct heap: region base, region length, and the free list in list
order. -/
structure Heap where
  base : Nat
  len : Nat
  freeList : List free_heap_chunk
deriving DecidableEq, Repr

/-- End address of a free chunk: base plus len. -/
def chunk_end (c : free_heap_chunk) : Nat := c.base + c.len

/-- The tail step of heap_insert_free_chunk: the chunk `c` has just been
placed directly before the (possibly empty) suffix `l` of the free list;
merge `c` with the head of `l` when they are physically adjacent
(`(vaddr_t)chunk + chunk->len == (vaddr_t)next_chunk`). -/
def merge_with_next (c : free_heap_chunk) : List free_heap_chunk → List free_heap_chunk
  | [] => [c]
  | n :: rest =>
    if c.base + c.len = n.base then ⟨c.base, c.len + n.len⟩ :: rest
    else c :: n :: rest

/-- heap_insert_free_chunk from heap.c.  The C loop walks the list to the
first node whose address exceeds the chunk being inserted and inserts
before it (at the tail when there is none); `takeWhile`/`dropWhile` with
the complementary test compute exactly the prefix walked over and the
remaining suffix.  The chunk is then merged with its immediate predecessor
(the last node of the prefix) when that predecessor ends exactly at the
chunk, and with its immediate successor via `merge_with_next`.  In the C
code the successor merge is skipped after a tail insert, which
`merge_with_next c []` reproduces. -/
def heap_insert_free_chunk (c : free_heap_chunk) (l : List free_heap_chunk) :
    List free_heap_chunk :=
  let before := l.takeWhile fun n => n.base ≤ c.base
  let after := l.dropWhile fun n => n.base ≤ c.base
  match before.getLast? with
  | some p =>
    if p.base + p.len = c.base then
      before.dropLast ++ merge_with_next ⟨p.base, p.len + c.len⟩ after
    else
      before ++ merge_with_next c after
  | none => merge_with_next c after

/-- The free-list walk inside heap_alloc: scan for the first chunk with
`chunk->len >= size`; on a hit, remove it and, when
`chunk->len > size + sizeof(struct free_heap_chunk)`, put the carved
remainder chunk in the removed chunk's list position.  Returns the
resulting list together with the chunk that was selected, if any. -/
def heap_alloc_walk (size : Nat) :
    List free_heap_chunk → List free_heap_chunk × Option free_heap_chunk
  | [] => ([], none)
  | c :: rest =>
    if size ≤ c.len then
      (if size + sizeof_free_heap_chunk < c.len then
        ⟨c.base + size, c.len - size⟩ :: rest
       else rest,
       some c)
    else
      let w := heap_alloc_walk size rest
      (c :: w.1, w.2)

/-- The size normalization at the top of heap_alloc: add the allocation
header, raise to at least sizeof(struct free_heap_chunk), round up to a
multiple of the pointer size, and for a nonzero alignment clamp the
alignment up to 16 and add it for the worst-case fit. -/
def heap_norm_size (size alignment : Nat) : Nat :=
  let s1 := size + sizeof_alloc_struct_begin
  let s2 := if s1 < sizeof_free_heap_chunk then sizeof_free_heap_chunk else s1
  let s3 := ROUNDUP s2 sizeof_ptr
  if 0 < alignment then
    s3 + (if alignment < 16 then 16 else alignment)
  else s3

/-- heap_alloc from heap.c.  Returns the heap after the call together with
`none` for a NULL return, or the returned user pointer and the
alloc_struct_begin header contents written for the allocation. -/
def heap_alloc (h : Heap) (size alignment : Nat) :
    Heap × Option (Nat × alloc_struct_begin) :=
  if Nat.land alignment (alignment - 1) ≠ 0 then (h, none)
  else
    let nsize := heap_norm_size size alignment
    let w := heap_alloc_walk nsize h.freeList
    match w.2 with
    | none => ({ h with freeList := w.1 }, none)
    | some c =>
      let eff := if nsize + sizeof_free_heap_chunk < c.len then nsize else c.len
      let p0 := c.base + sizeof_alloc_struct_begin
      let u := if 0 < alignment then
          ROUNDUP p0 (if alignment < 16 then 16 else alignment)
        else p0
      ({ h with freeList := w.1 }, some (u, ⟨HEAP_MAGIC, c.base, eff⟩))

/-- heap_free on a non-null pointer: reconstruct the free chunk at the
span base `as->ptr` with length `as->size` and insert it into the free
list with coalescing.  The argument is the header contents that heap_alloc
wrote for the allocation being freed. -/
def heap_free (a : alloc_struct_begin) (l : List free_heap_chunk) :
    List free_heap_chunk :=
  heap_insert_free_chunk ⟨a.ptr, a.size⟩ l

/-- heap_init over a region: record base and length, start from the empty
free list and insert one chunk spanning the whole region. -/
def heap_init (base len : Nat) : Heap :=
  { base := base, len := len,
    freeList := heap_insert_free_chunk ⟨base, len⟩ [] }

/-- The states reachable by completed heap_alloc / heap_free calls from an
initialized heap, together with the headers of the live allocations.  A
free call is only well formed on a pointer currently live (freeing
anything else trips the magic assertion or corrupts the heap).  heap_init
requires a nonempty region (the spec demands at least a free-chunk header,
so positivity is implied). -/
inductive Reachable : Heap → List alloc_struct_begin → Prop where
  | init (base len : Nat) (hlen : 0 < len) : Reachable (heap_init base len) []
  | allocOk {h h' : Heap} {live : List alloc_struct_begin} {size alignment u : Nat}
      {a : alloc_struct_begin} :
      Reachable h live → heap_alloc h size alignment = (h', some (u, a)) →
      Reachable h' (a :: live)
  | allocFail {h h' : Heap} {live : List alloc_struct_begin} {size alignment : Nat} :
      Reachable h live → heap_alloc h size alignment = (h', none) →
      Reachable h' live
  | freeOp {h : Heap} {live : List alloc_struct_begin} {a : alloc_struct_begin} :
      Reachable h live → a ∈ live →
      Reachable { h with freeList := heap_free a h.freeList } (live.erase a)

/-! ### Arithmetic facts about ROUNDUP -/

theorem ROUNDUP_mod_eq_zero (a b : Nat) (hb : 0 < b) : ROUNDUP a b % b = 0 := by
  unfold ROUNDUP
  have hdm := Nat.div_add_mod (a + (b - 1)) b
  have h1 : a + (b - 1) - (a + (b - 1)) % b = b * ((a + (b - 1)) / b) := by omega
  rw [h1]
  exact Nat.mul_mod_right _ _

theorem le_ROUNDUP (a b : Nat) (hb : 0 < b) : a ≤ ROUNDUP a b := by
  unfold ROUNDUP
  have hm := Nat.mod_lt (a + (b - 1)) hb
  omega

theorem ROUNDUP_le (a b : Nat) : ROUNDUP a b ≤ a + (b - 1) := by
  unfold ROUNDUP
  omega

/-! ### Characterization of the heap_alloc free-list walk -/

theorem heap_alloc_walk_none {size : Nat} :
    ∀ {l : List free_heap_chunk},
      (heap_alloc_walk size l).2 = none ↔ ∀ c ∈ l, c.len < size := by
  intro l
  induction l with
  | nil => simp [heap_alloc_walk]
  | cons c rest ih =>
    by_cases hc : size ≤ c.len
    · simp [heap_alloc_walk, hc]
    · simp [heap_alloc_walk, hc, ih]
      omega

theorem heap_alloc_walk_none_eq {size : Nat} :
    ∀ {l : List free_heap_chunk},
      (heap_alloc_walk size l).2 = none → (heap_alloc_walk size l).1 = l := by
  intro l
  induction l with
  | nil => intro _; rfl
  | cons c rest ih =>
    intro hnone
    by_cases hc : size ≤ c.len
    · simp [heap_alloc_walk, hc] at hnone
    · simp [heap_alloc_walk, hc] at hnone ⊢
      exact ih hnone

theorem heap_alloc_walk_some {size : Nat} :
    ∀ {l : List free_heap_chunk} {c : free_heap_chunk},
      (heap_alloc_walk size l).2 = some c →
      ∃ l1 l2, l = l1 ++ c :: l2 ∧ (∀ d ∈ l1, d.len < size) ∧ size ≤ c.len ∧
        (heap_alloc_walk size l).1 =
          l1 ++ (if size + sizeof_free_heap_chunk < c.len then
                   [⟨c.base + size, c.len - size⟩] else []) ++ l2 := by
  intro l
  induction l with
  | nil => intro c h; simp [heap_alloc_walk] at h
  | cons d rest ih =>
    intro c h
    by_cases hd : size ≤ d.len
    · simp [heap_alloc_walk, hd] at h ⊢
      subst h
      exact ⟨[], rest, rfl, by simp, hd, by split <;> simp⟩
    · simp [heap_alloc_walk, hd] at h ⊢
      obtain ⟨l1, l2, hsplit, hsmall, hbig, hres⟩ := ih h
      refine ⟨d :: l1, l2, by simp [hsplit], ?_, hbig, by simp [hres]⟩
      intro e he
      rcases List.mem_cons.mp he with rfl | he
      · omega
      · exact hsmall e he

/-! ### Destructuring successful and failing heap_alloc calls -/

theorem heap_alloc_some_spec {h : Heap} {n al : Nat} {h' : Heap} {u : Nat}
    {a : alloc_struct_begin} (he : heap_alloc h n al = (h', some (u, a))) :
    Nat.land al (al - 1) = 0 ∧
    ∃ l1 c l2,
      h.freeList = l1 ++ c :: l2 ∧
      (∀ d ∈ l1, d.len < heap_norm_size n al) ∧
      heap_norm_size n al ≤ c.len ∧
      h'.base = h.base ∧ h'.len = h.len ∧
      a.magic = HEAP_MAGIC ∧ a.ptr = c.base ∧
      ((heap_norm_size n al + sizeof_free_heap_chunk < c.len ∧
         h'.freeList = l1 ++ ⟨c.base + heap_norm_size n al,
                              c.len - heap_norm_size n al⟩ :: l2 ∧
         a.size = heap_norm_size n al) ∨
       (¬ (heap_norm_size n al + sizeof_free_heap_chunk < c.len) ∧
         h'.freeList = l1 ++ l2 ∧ a.size = c.len)) ∧
      u = (if 0 < al then
            ROUNDUP (c.base + sizeof_alloc_struct_begin)
              (if al < 16 then 16 else al)
           else c.base + sizeof_alloc_struct_begin) := by
  by_cases hguard : Nat.land al (al - 1) ≠ 0
  · rw [heap_alloc, if_pos hguard] at he
    exact absurd (congrArg Prod.snd he) (by simp)
  rcases hw : (heap_alloc_walk (heap_norm_size n al) h.freeList).2 with _ | c
  · rw [heap_alloc, if_neg hguard] at he
    simp only [hw] at he
    exact absurd (congrArg Prod.snd he) (by simp)
  rw [heap_alloc, if_neg hguard] at he
  simp only [hw] at he
  rw [Prod.mk.injEq] at he
  obtain ⟨hh', hsome⟩ := he
  rw [Option.some.injEq, Prod.mk.injEq] at hsome
  obtain ⟨hu, ha⟩ := hsome
  obtain ⟨l1, l2, hsplit, hsmall, hbig, hres⟩ := heap_alloc_walk_some hw
  refine ⟨by omega, l1, c, l2, hsplit, hsmall, hbig,
    by rw [← hh'], by rw [← hh'], by rw [← ha], by rw [← ha], ?_, hu.symm⟩
  by_cases hsp : heap_norm_size n al + sizeof_free_heap_chunk < c.len
  · left
    refine ⟨hsp, ?_, by rw [← ha]; simp [hsp]⟩
    rw [← hh']
    simp only [hres, hsp, if_pos]
    simp
  · right
    refine ⟨hsp, ?_, by rw [← ha]; simp [hsp]⟩
    rw [← hh']
    simp only [hres, if_neg hsp]
    simp

theorem heap_alloc_none_spec {h : Heap} {n al : Nat} {h' : Heap}
    (he : heap_alloc h n al = (h', none)) :
    h' = h ∧ (Nat.land al (al - 1) ≠ 0 ∨
      ∀ c ∈ h.freeList, c.len < heap_norm_size n al) := by
  by_cases hguard : Nat.land al (al - 1) ≠ 0
  · rw [heap_alloc, if_pos hguard] at he
    exact ⟨(Prod.mk.injEq .. ▸ he).1.symm, Or.inl hguard⟩
  rcases hw : (heap_alloc_walk (heap_norm_size n al) h.freeList).2 with _ | c
  · rw [heap_alloc, if_neg hguard] at he
    simp only [hw] at he
    rw [Prod.mk.injEq] at he
    have hfl := heap_alloc_walk_none_eq hw
    constructor
    · rw [← he.1, hfl]
    · exact Or.inr (heap_alloc_walk_none.mp hw)
  · rw [heap_alloc, if_neg hguard] at he
    simp only [hw] at he
    exact absurd (congrArg Prod.snd he) (by simp)

theorem heap_alloc_isNone_iff (h : Heap) (n al : Nat) :
    (heap_alloc h n al).2 = none ↔
      (Nat.land al (al - 1) ≠ 0 ∨
        ∀ c ∈ h.freeList, c.len < heap_norm_size n al) := by
  constructor
  · intro hnone
    have he : heap_alloc h n al = ((heap_alloc h n al).1, none) := by
      rw [← hnone]
    exact (heap_alloc_none_spec he).2
  · intro hcase
    by_cases hguard : Nat.land al (al - 1) ≠ 0
    · rw [heap_alloc, if_pos hguard]
    · rcases hcase with hbad | hnofit
      · exact absurd hbad hguard
      · have hw : (heap_alloc_walk (heap_norm_size n al) h.freeList).2 = none :=
          heap_alloc_walk_none.mpr hnofit
        rw [heap_alloc, if_neg hguard]
        simp only [hw]

/-! ### Sums of chunk lengths and live span sizes -/

/-- Total number of free bytes: the sum of the len fields over the free list. -/
def free_list_sum (l : List free_heap_chunk) : Nat :=
  (l.map free_heap_chunk.len).sum

/-- Total number of bytes held by live allocations: the sum of the span_size
fields of their headers. -/
def live_sum (l : List alloc_struct_begin) : Nat :=
  (l.map alloc_struct_begin.size).sum

theorem free_list_sum_nil : free_list_sum [] = 0 := rfl

theorem free_list_sum_cons (c : free_heap_chunk) (l : List free_heap_chunk) :
    free_list_sum (c :: l) = c.len + free_list_sum l := by
  simp [free_list_sum]

theorem free_list_sum_append (l1 l2 : List free_heap_chunk) :
    free_list_sum (l1 ++ l2) = free_list_sum l1 + free_list_sum l2 := by
  simp [free_list_sum]

theorem merge_with_next_sum (c : free_heap_chunk) (l : List free_heap_chunk) :
    free_list_sum (merge_with_next c l) = c.len + free_list_sum l := by
  cases l with
  | nil => simp [merge_with_next, free_list_sum]
  | cons n rest =>
    by_cases hadj : c.base + c.len = n.base
    · simp only [merge_with_next, if_pos hadj, free_list_sum_cons] <;> omega
    · simp only [merge_with_next, if_neg hadj, free_list_sum_cons] <;> omega

theorem heap_insert_free_chunk_sum (c : free_heap_chunk) (l : List free_heap_chunk) :
    free_list_sum (heap_insert_free_chunk c l) = c.len + free_list_sum l := by
  simp only [heap_insert_free_chunk]
  set B := l.takeWhile (fun n => n.base ≤ c.base) with hB
  set A := l.dropWhile (fun n => n.base ≤ c.base) with hA
  have hsuml : free_list_sum l = free_list_sum B + free_list_sum A := by
    conv_lhs => rw [(List.takeWhile_append_dropWhile
      (p := fun n => n.base ≤ c.base) (l := l)).symm]
    rw [free_list_sum_append]
  cases hg : B.getLast? with
  | none =>
    have hemp : B = [] := List.getLast?_eq_none_iff.mp hg
    simp only [hg]
    rw [merge_with_next_sum]
    rw [hemp, free_list_sum_nil] at hsuml
    omega
  | some p =>
    have hdl := List.dropLast_append_getLast? p hg
    have hsumB : free_list_sum B = free_list_sum B.dropLast + p.len := by
      conv_lhs => rw [← hdl]
      rw [free_list_sum_append, free_list_sum_cons, free_list_sum_nil]
      omega
    simp only [hg]
    by_cases hadj : p.base + p.len = c.base
    · rw [if_pos hadj, free_list_sum_append, merge_with_next_sum]
      simp only [free_heap_chunk.len]
      omega
    · rw [if_neg hadj, free_list_sum_append, merge_with_next_sum]
      omega

/-! ### Separation of the free list -/

/-- The span `[p, p + s)` does not overlap the span of the chunk `c`. -/
def SpanDisj (p s : Nat) (c : free_heap_chunk) : Prop :=
  p + s ≤ c.base ∨ chunk_end c ≤ p

/-- Every chunk of the list ends strictly before the next one begins: the
chunks appear in ascending address order, do not overlap, and no two are
physically adjacent. -/
def Separated (l : List free_heap_chunk) : Prop :=
  l.Pairwise fun a b => chunk_end a < b.base

theorem SpanDisj_merge {p s : Nat} {a b : free_heap_chunk} (hs : 0 < s)
    (hab : chunk_end a = b.base) (h1 : SpanDisj p s a) (h2 : SpanDisj p s b) :
    SpanDisj p s ⟨a.base, a.len + b.len⟩ := by
  unfold SpanDisj chunk_end at *
  simp only [] at *
  omega

theorem merge_with_next_sep {m : free_heap_chunk} {A : List free_heap_chunk}
    (hsepA : Separated A) (hend : ∀ d ∈ A, chunk_end m ≤ d.base)
    (hpos : ∀ d ∈ A, 0 < d.len) :
    Separated (merge_with_next m A) := by
  cases A with
  | nil => simp [merge_with_next, Separated]
  | cons n rest =>
    rw [Separated, List.pairwise_cons] at hsepA
    obtain ⟨hn, hrest⟩ := hsepA
    by_cases hadj : m.base + m.len = n.base
    · simp only [merge_with_next, if_pos hadj]
      rw [Separated, List.pairwise_cons]
      refine ⟨?_, hrest⟩
      intro d hd
      have := hn d hd
      unfold chunk_end at *
      simp only [] at *
      omega
    · simp only [merge_with_next, if_neg hadj]
      rw [Separated, List.pairwise_cons]
      constructor
      · intro d hd
        rcases List.mem_cons.mp hd with rfl | hd
        · have := hend d (List.mem_cons_self ..)
          unfold chunk_end at *
          omega
        · have h1 := hend n (List.mem_cons_self ..)
          have h2 := hn d hd
          have h3 := hpos n (List.mem_cons_self ..)
          unfold chunk_end at *
          omega
      · exact List.Pairwise.cons hn hrest

theorem merge_with_next_pos {m : free_heap_chunk} {A : List free_heap_chunk}
    (hm : 0 < m.len) (hpos : ∀ d ∈ A, 0 < d.len) :
    ∀ d ∈ merge_with_next m A, 0 < d.len := by
  cases A with
  | nil =>
    intro d hd
    rcases List.mem_singleton.mp hd with rfl
    exact hm
  | cons n rest =>
    intro d hd
    by_cases hadj : m.base + m.len = n.base
    · simp only [merge_with_next, if_pos hadj] at hd
      rcases List.mem_cons.mp hd with rfl | hd
      · simp only []
        omega
      · exact hpos d (List.mem_cons_of_mem _ hd)
    · simp only [merge_with_next, if_neg hadj] at hd
      rcases List.mem_cons.mp hd with rfl | hd
      · exact hm
      · exact hpos d hd

theorem merge_with_next_mem {m : free_heap_chunk} {A : List free_heap_chunk}
    {x : free_heap_chunk} (hx : x ∈ merge_with_next m A) :
    x.base = m.base ∨ x ∈ A := by
  cases A with
  | nil =>
    rcases List.mem_singleton.mp hx with rfl
    exact Or.inl rfl
  | cons n rest =>
    by_cases hadj : m.base + m.len = n.base
    · simp only [merge_with_next, if_pos hadj] at hx
      rcases List.mem_cons.mp hx with rfl | hx
      · exact Or.inl rfl
      · exact Or.inr (List.mem_cons_of_mem _ hx)
    · simp only [merge_with_next, if_neg hadj] at hx
      rcases List.mem_cons.mp hx with rfl | hx
      · exact Or.inl rfl
      · exact Or.inr hx

theorem merge_with_next_disj {m : free_heap_chunk} {A : List free_heap_chunk}
    {p s : Nat} (hs : 0 < s) (hm : SpanDisj p s m)
    (hA : ∀ d ∈ A, SpanDisj p s d) :
    ∀ x ∈ merge_with_next m A, SpanDisj p s x := by
  cases A with
  | nil =>
    intro x hx
    rcases List.mem_singleton.mp hx with rfl
    exact hm
  | cons n rest =>
    intro x hx
    by_cases hadj : m.base + m.len = n.base
    · simp only [merge_with_next, if_pos hadj] at hx
      rcases List.mem_cons.mp hx with rfl | hx
      · exact SpanDisj_merge hs hadj hm (hA n (List.mem_cons_self ..))
      · exact hA x (List.mem_cons_of_mem _ hx)
    · simp only [merge_with_next, if_neg hadj] at hx
      rcases List.mem_cons.mp hx with rfl | hx
      · exact hm
      · exact hA x hx

theorem heap_insert_free_chunk_spec (c : free_heap_chunk) (l : List free_heap_chunk)
    (hsep : Separated l) (hpos : ∀ d ∈ l, 0 < d.len) (hc : 0 < c.len)
    (hdisj : ∀ d ∈ l, SpanDisj c.base c.len d) :
    Separated (heap_insert_free_chunk c l) ∧
    (∀ d ∈ heap_insert_free_chunk c l, 0 < d.len) ∧
    (∀ p s, 0 < s → SpanDisj p s c → (∀ d ∈ l, SpanDisj p s d) →
      ∀ d ∈ heap_insert_free_chunk c l, SpanDisj p s d) := by
  simp only [heap_insert_free_chunk]
  set B := l.takeWhile (fun n => n.base ≤ c.base) with hB
  set A := l.dropWhile (fun n => n.base ≤ c.base) with hA
  have hBA : l = B ++ A :=
    (List.takeWhile_append_dropWhile (p := fun n => n.base ≤ c.base) (l := l)).symm
  have hBmem : ∀ d ∈ B, d ∈ l := fun d hd => List.takeWhile_subset _ hd
  have hAmem : ∀ d ∈ A, d ∈ l := fun d hd => List.dropWhile_subset _ hd
  have hPair : l.Pairwise fun a b => chunk_end a < b.base := hsep
  have hPB : B.Pairwise fun a b => chunk_end a < b.base :=
    ((List.pairwise_append).mp (hBA ▸ hPair)).1
  have hPA : A.Pairwise fun a b => chunk_end a < b.base :=
    ((List.pairwise_append).mp (hBA ▸ hPair)).2.1
  have hCross : ∀ a ∈ B, ∀ b ∈ A, chunk_end a < b.base :=
    ((List.pairwise_append).mp (hBA ▸ hPair)).2.2
  have hBle : ∀ d ∈ B, d.base ≤ c.base := by
    intro d hd
    have := List.mem_takeWhile_imp hd
    simpa using this
  have hBend : ∀ d ∈ B, chunk_end d ≤ c.base := by
    intro d hd
    rcases hdisj d (hBmem d hd) with h1 | h1
    · have := hBle d hd
      unfold chunk_end at *
      omega
    · exact h1
  have hAgt : ∀ d ∈ A, c.base < d.base := by
    intro d hd
    cases hA2 : A with
    | nil => rw [hA2] at hd; exact absurd hd (List.not_mem_nil d)
    | cons n rest =>
      have hhead : ¬ (n.base ≤ c.base) := by
        have := List.head?_dropWhile_not (fun n : free_heap_chunk => n.base ≤ c.base) l
        rw [← hA, hA2] at this
        simpa using this
      rw [hA2] at hd
      rcases List.mem_cons.mp hd with rfl | hd2
      · omega
      · have h1 := (List.pairwise_cons.mp (hA2 ▸ hPA)).1 d hd2
        have h2 := hpos n (hAmem n (hA2 ▸ List.mem_cons_self ..))
        unfold chunk_end at h1
        omega
  have hAend : ∀ d ∈ A, chunk_end c ≤ d.base := by
    intro d hd
    rcases hdisj d (hAmem d hd) with h1 | h1
    · exact h1
    · have h2 := hAgt d hd
      have h3 := hpos d (hAmem d hd)
      unfold chunk_end at *
      omega
  cases hg : B.getLast? with
  | none =>
    have hemp : B = [] := List.getLast?_eq_none_iff.mp hg
    rw [hemp] at hBA
    simp only [List.nil_append] at hBA
    refine ⟨merge_with_next_sep hPA hAend (fun d hd => hpos d (hAmem d hd)), ?_, ?_⟩
    · exact merge_with_next_pos hc (fun d hd => hpos d (hAmem d hd))
    · intro p s hs hpc hl
      exact merge_with_next_disj hs hpc (fun d hd => hl d (hAmem d hd))
  | some p =>
    have hdl : B.dropLast ++ [p] = B := List.dropLast_append_getLast? p hg
    have hpB : p ∈ B := by
      rw [← hdl]
      exact List.mem_append_right _ (List.mem_singleton_self p)
    have hPB' : B.dropLast.Pairwise fun a b => chunk_end a < b.base :=
      hPB.sublist (List.dropLast_sublist B)
    have hCrossB' : ∀ d ∈ B.dropLast, chunk_end d < p.base := by
      intro d hd
      have := ((List.pairwise_append).mp (hdl ▸ hPB)).2.2
      exact this d hd p (List.mem_singleton_self p)
    have hB'mem : ∀ d ∈ B.dropLast, d ∈ B := by
      intro d hd
      exact (List.dropLast_sublist B).mem hd
    by_cases hadj : p.base + p.len = c.base
    · simp only [if_pos hadj]
      have hmend : chunk_end (⟨p.base, p.len + c.len⟩ : free_heap_chunk) = chunk_end c := by
        unfold chunk_end at *
        simp only []
        omega
      have hmpos : 0 < p.len + c.len := by omega
      have hsepm : Separated (merge_with_next ⟨p.base, p.len + c.len⟩ A) :=
        merge_with_next_sep hPA (by rw [hmend]; exact hAend)
          (fun d hd => hpos d (hAmem d hd))
      refine ⟨?_, ?_, ?_⟩
      · rw [Separated, List.pairwise_append]
        refine ⟨hPB', hsepm, ?_⟩
        intro a ha x hx
        rcases merge_with_next_mem hx with hxb | hxA
        · rw [hxb]
          exact hCrossB' a ha
        · have h1 := hCrossB' a ha
          have h2 := hBend p hpB
          have h3 := hAgt x hxA
          unfold chunk_end at *
          omega
      · intro d hd
        rcases List.mem_append.mp hd with hd1 | hd2
        · exact hpos d (hBmem d (hB'mem d hd1))
        · exact merge_with_next_pos hmpos (fun e he => hpos e (hAmem e he)) d hd2
      · intro q s hs hqc hl
        intro d hd
        rcases List.mem_append.mp hd with hd1 | hd2
        · exact hl d (hBmem d (hB'mem d hd1))
        · refine merge_with_next_disj hs ?_ (fun e he => hl e (hAmem e he)) d hd2
          exact SpanDisj_merge hs hadj (hl p (hBmem p hpB)) hqc
    · simp only [if_neg hadj]
      have hplt : chunk_end p < c.base := by
        have := hBend p hpB
        unfold chunk_end at *
        omega
      refine ⟨?_, ?_, ?_⟩
      · rw [Separated, List.pairwise_append]
        refine ⟨hPB, merge_with_next_sep hPA hAend (fun d hd => hpos d (hAmem d hd)), ?_⟩
        intro a ha x hx
        have haend : chunk_end a < c.base := by
          have ha2 : a ∈ B.dropLast ++ [p] := by rw [hdl]; exact ha
          rcases List.mem_append.mp ha2 with h1 | h1
          · have h2 := hCrossB' a h1
            have h3 := hBend p hpB
            unfold chunk_end at *
            omega
          · rcases List.mem_singleton.mp h1 with rfl
            exact hplt
        rcases merge_with_next_mem hx with hxb | hxA
        · rw [hxb]; exact haend
        · have h3 := hAgt x hxA
          unfold chunk_end at *
          omega
      · intro d hd
        rcases List.mem_append.mp hd with hd1 | hd2
        · exact hpos d (hBmem d hd1)
        · exact merge_with_next_pos hc (fun e he => hpos e (hAmem e he)) d hd2
      · intro q s hs hqc hl
        intro d hd
        rcases List.mem_append.mp hd with hd1 | hd2
        · exact hl d (hBmem d hd1)
        · exact merge_with_next_disj hs hqc (fun e he => hl e (hAmem e he)) d hd2

/-! ### The heap invariant over reachable states -/

/-- Invariant tying the free list to the live allocations: the free list is
separated (ascending, non-overlapping, non-adjacent), all lengths are
positive, live spans are disjoint from every free chunk and from each
other. -/
structure HeapInv (h : Heap) (live : List alloc_struct_begin) : Prop where
  sep : Separated h.freeList
  pos : ∀ c ∈ h.freeList, 0 < c.len
  livePos : ∀ a ∈ live, 0 < a.size
  liveFree : ∀ a ∈ live, ∀ c ∈ h.freeList, SpanDisj a.ptr a.size c
  liveLive : live.Pairwise fun a b => a.ptr + a.size ≤ b.ptr ∨ b.ptr + b.size ≤ a.ptr

theorem heap_init_freeList (base len : Nat) :
    (heap_init base len).freeList = [⟨base, len⟩] := rfl

theorem heap_norm_size_lower (n al : Nat) :
    n + sizeof_alloc_struct_begin +
      (if 0 < al then (if al < 16 then 16 else al) else 0) ≤ heap_norm_size n al ∧
    sizeof_free_heap_chunk ≤ heap_norm_size n al := by
  simp only [heap_norm_size, sizeof_alloc_struct_begin, sizeof_free_heap_chunk, sizeof_ptr]
  have hnn : ¬ (n + 12 < 12) := by omega
  rw [if_neg hnn]
  have hr := le_ROUNDUP (n + 12) 4 (by omega)
  by_cases h0 : 0 < al
  · by_cases h16 : al < 16 <;> simp [h0, h16] <;> omega
  · simp [h0]
    omega

theorem HeapInv_init (base len : Nat) (hlen : 0 < len) :
    HeapInv (heap_init base len) [] := by
  refine ⟨?_, ?_, ?_, ?_, ?_⟩
  · rw [heap_init_freeList]
    exact List.pairwise_singleton _ _
  · intro c hc
    rw [heap_init_freeList] at hc
    rcases List.mem_singleton.mp hc with rfl
    exact hlen
  · intro a ha; exact absurd ha (List.not_mem_nil a)
  · intro a ha; exact absurd ha (List.not_mem_nil a)
  · exact List.Pairwise.nil

theorem HeapInv_allocFail {h h' : Heap} {live : List alloc_struct_begin}
    {n al : Nat} (inv : HeapInv h live)
    (he : heap_alloc h n al = (h', none)) : HeapInv h' live := by
  rw [(heap_alloc_none_spec he).1]
  exact inv

theorem HeapInv_allocOk {h h' : Heap} {live : List alloc_struct_begin}
    {n al u : Nat} {a : alloc_struct_begin} (inv : HeapInv h live)
    (he : heap_alloc h n al = (h', some (u, a))) : HeapInv h' (a :: live) := by
  obtain ⟨-, l1, c, l2, hsplit, hsmall, hbig, -, -, -, haptr, hcase, -⟩ :=
    heap_alloc_some_spec he
  have hns := heap_norm_size_lower n al
  set ns := heap_norm_size n al with hnsdef
  clear_value ns
  have hns12 : sizeof_free_heap_chunk ≤ ns := hns.2
  have hK : sizeof_free_heap_chunk = 12 := rfl
  have hsep := inv.sep
  rw [hsplit] at hsep
  have hP1 : l1.Pairwise fun x y => chunk_end x < y.base :=
    ((List.pairwise_append).mp hsep).1
  have hPc2 : (c :: l2).Pairwise fun x y => chunk_end x < y.base :=
    ((List.pairwise_append).mp hsep).2.1
  have hCross : ∀ x ∈ l1, ∀ y ∈ c :: l2, chunk_end x < y.base :=
    ((List.pairwise_append).mp hsep).2.2
  have hc2 : ∀ d ∈ l2, chunk_end c < d.base := (List.pairwise_cons.mp hPc2).1
  have hP2 : l2.Pairwise fun x y => chunk_end x < y.base := (List.pairwise_cons.mp hPc2).2
  have hposc : 0 < c.len := inv.pos c (by rw [hsplit]; simp)
  have hmem1 : ∀ d ∈ l1, d ∈ h.freeList := by intro d hd; rw [hsplit]; simp [hd]
  have hmem2 : ∀ d ∈ l2, d ∈ h.freeList := by intro d hd; rw [hsplit]; simp [hd]
  have hcmem : c ∈ h.freeList := by rw [hsplit]; simp
  have hx1 : ∀ d ∈ l1, chunk_end d < c.base := fun d hd =>
    hCross d hd c (List.mem_cons_self ..)
  -- the span handed to the allocation is contained in the chunk span
  have haspan : a.ptr = c.base ∧ a.size ≤ c.len ∧ ns ≤ a.size := by
    rcases hcase with ⟨hsp, -, hsz⟩ | ⟨hsp, -, hsz⟩
    · exact ⟨haptr, by omega, by omega⟩
    · exact ⟨haptr, by omega, by omega⟩
  have hlivePos : ∀ b ∈ a :: live, 0 < b.size := by
    intro b hb
    rcases List.mem_cons.mp hb with rfl | hb
    · omega
    · exact inv.livePos b hb
  -- disjointness of the new span from any chunk contained in the old list
  have hspanDisjOld : ∀ d, d ∈ l1 ∨ d ∈ l2 → SpanDisj a.ptr a.size d := by
    intro d hd
    rcases hd with hd | hd
    · exact Or.inr (by have := hx1 d hd; unfold chunk_end at *; omega)
    · exact Or.inl (by have := hc2 d hd; unfold chunk_end at *; omega)
  -- disjointness of the new span from every old live span
  have hspanDisjLive : ∀ b ∈ live, a.ptr + a.size ≤ b.ptr ∨ b.ptr + b.size ≤ a.ptr := by
    intro b hb
    rcases inv.liveFree b hb c hcmem with h1 | h1
    · exact Or.inr (by unfold chunk_end at *; omega)
    · exact Or.inl (by unfold chunk_end at *; omega)
  rcases hcase with ⟨hsp, hfl, hsz⟩ | ⟨hsp, hfl, hsz⟩
  · -- split case: the carved remainder chunk goes where c was
    set nc : free_heap_chunk := ⟨c.base + ns, c.len - ns⟩ with hnc
    have hncEnd : chunk_end nc = chunk_end c := by
      unfold chunk_end
      simp only [hnc]
      omega
    refine ⟨?_, ?_, hlivePos, ?_, ?_⟩
    · rw [hfl, Separated, List.pairwise_append]
      refine ⟨hP1, ?_, ?_⟩
      · rw [List.pairwise_cons]
        refine ⟨?_, hP2⟩
        intro d hd
        have := hc2 d hd
        omega
      · intro x hx y hy
        rcases List.mem_cons.mp hy with rfl | hy
        · have := hx1 x hx
          unfold chunk_end at *
          simp only [hnc]
          omega
        · exact hCross x hx y (List.mem_cons_of_mem _ hy)
    · intro d hd
      rw [hfl] at hd
      rcases List.mem_append.mp hd with hd | hd
      · exact inv.pos d (hmem1 d hd)
      · rcases List.mem_cons.mp hd with rfl | hd
        · simp only [hnc]
          have h12 : 0 < sizeof_free_heap_chunk := by norm_num [sizeof_free_heap_chunk]
          omega
        · exact inv.pos d (hmem2 d hd)
    · intro b hb d hd
      rw [hfl] at hd
      rcases List.mem_cons.mp hb with rfl | hb
      · -- the fresh allocation against the new free list
        rcases List.mem_append.mp hd with hd | hd
        · exact hspanDisjOld d (Or.inl hd)
        · rcases List.mem_cons.mp hd with rfl | hd
          · exact Or.inl (by simp only [hnc]; omega)
          · exact hspanDisjOld d (Or.inr hd)
      · -- an old live span against the new free list
        rcases List.mem_append.mp hd with hd | hd
        · exact inv.liveFree b hb d (hmem1 d hd)
        · rcases List.mem_cons.mp hd with rfl | hd
          · rcases inv.liveFree b hb c hcmem with h1 | h1
            · exact Or.inl (by simp only [hnc]; unfold chunk_end at *; omega)
            · exact Or.inr (by rw [hncEnd]; exact h1)
          · exact inv.liveFree b hb d (hmem2 d hd)
    · rw [List.pairwise_cons]
      exact ⟨hspanDisjLive, inv.liveLive⟩
  · -- consume case: c simply disappears from the list
    refine ⟨?_, ?_, hlivePos, ?_, ?_⟩
    · rw [hfl, Separated, List.pairwise_append]
      refine ⟨hP1, hP2, ?_⟩
      intro x hx y hy
      exact hCross x hx y (List.mem_cons_of_mem _ hy)
    · intro d hd
      rw [hfl] at hd
      rcases List.mem_append.mp hd with hd | hd
      · exact inv.pos d (hmem1 d hd)
      · exact inv.pos d (hmem2 d hd)
    · intro b hb d hd
      rw [hfl] at hd
      rcases List.mem_cons.mp hb with rfl | hb
      · rcases List.mem_append.mp hd with hd | hd
        · exact hspanDisjOld d (Or.inl hd)
        · exact hspanDisjOld d (Or.inr hd)
      · rcases List.mem_append.mp hd with hd | hd
        · exact inv.liveFree b hb d (hmem1 d hd)
        · exact inv.liveFree b hb d (hmem2 d hd)
    · rw [List.pairwise_cons]
      exact ⟨hspanDisjLive, inv.liveLive⟩

theorem HeapInv_free {h : Heap} {live : List alloc_struct_begin}
    {a : alloc_struct_begin} (inv : HeapInv h live) (ha : a ∈ live) :
    HeapInv { h with freeList := heap_free a h.freeList } (live.erase a) := by
  have hsymm : Symmetric (fun x y : alloc_struct_begin =>
      x.ptr + x.size ≤ y.ptr ∨ y.ptr + y.size ≤ x.ptr) := by
    intro x y hxy
    rcases hxy with h1 | h1
    · exact Or.inr h1
    · exact Or.inl h1
  have hperm := List.perm_cons_erase ha
  have hPa : (a :: live.erase a).Pairwise fun x y =>
      x.ptr + x.size ≤ y.ptr ∨ y.ptr + y.size ≤ x.ptr :=
    (hperm.pairwise_iff fun hxy => hsymm hxy).mp inv.liveLive
  have hErMem : ∀ b ∈ live.erase a, b ∈ live := fun b hb => List.mem_of_mem_erase hb
  have hADisj : ∀ b ∈ live.erase a,
      a.ptr + a.size ≤ b.ptr ∨ b.ptr + b.size ≤ a.ptr :=
    (List.pairwise_cons.mp hPa).1
  have hspec := heap_insert_free_chunk_spec ⟨a.ptr, a.size⟩ h.freeList inv.sep inv.pos
    (inv.livePos a ha) (inv.liveFree a ha)
  refine ⟨hspec.1, hspec.2.1, ?_, ?_, (List.pairwise_cons.mp hPa).2⟩
  · intro b hb
    exact inv.livePos b (hErMem b hb)
  · intro b hb d hd
    refine hspec.2.2 b.ptr b.size (inv.livePos b (hErMem b hb)) ?_
      (fun e he => inv.liveFree b (hErMem b hb) e he) d hd
    rcases hADisj b hb with h1 | h1
    · exact Or.inr h1
    · exact Or.inl h1

/-- Every reachable state satisfies the heap invariant. -/
theorem Reachable_HeapInv {h : Heap} {live : List alloc_struct_begin}
    (hr : Reachable h live) : HeapInv h live := by
  induction hr with
  | init base len hlen => exact HeapInv_init base len hlen
  | allocOk _ he ih => exact HeapInv_allocOk ih he
  | allocFail _ he ih => exact HeapInv_allocFail ih he
  | freeOp _ ha ih => exact HeapInv_free ih ha

theorem live_sum_cons (a : alloc_struct_begin) (l : List alloc_struct_begin) :
    live_sum (a :: l) = a.size + live_sum l := by
  simp [live_sum]

/-- Conservation of bytes: in every reachable state the free bytes plus the
live span bytes add up to the region length. -/
theorem Reachable_sum {h : Heap} {live : List alloc_struct_begin}
    (hr : Reachable h live) :
    free_list_sum h.freeList + live_sum live = h.len := by
  induction hr with
  | init base len hlen =>
    simp [heap_init, heap_init_freeList, free_list_sum_cons, free_list_sum_nil, live_sum]
    rfl
  | allocOk _ he ih =>
    obtain ⟨-, l1, c, l2, hsplit, -, hbig, -, hlen, -, -, hcase, -⟩ :=
      heap_alloc_some_spec he
    rw [hsplit, free_list_sum_append, free_list_sum_cons] at ih
    rw [hlen, ← ih, live_sum_cons]
    rcases hcase with ⟨hsp, hfl, hsz⟩ | ⟨hsp, hfl, hsz⟩
    · rw [hfl, free_list_sum_append, free_list_sum_cons, hsz]
      simp only []
      omega
    · rw [hfl, free_list_sum_append, hsz]
      omega
  | allocFail _ he ih =>
    rw [(heap_alloc_none_spec he).1]
    exact ih
  | @freeOp h live a hprev ha ih =>
    have hl : ({ h with freeList := heap_free a h.freeList } : Heap).len = h.len := rfl
    have hfs : free_list_sum ({ h with freeList := heap_free a h.freeList } : Heap).freeList
        = a.size + free_list_sum h.freeList := by
      show free_list_sum (heap_free a h.freeList) = a.size + free_list_sum h.freeList
      rw [heap_free, heap_insert_free_chunk_sum]
    have hperm := List.perm_cons_erase ha
    have hsum : live_sum live = live_sum (a :: live.erase a) :=
      (hperm.map alloc_struct_begin.size).sum_eq
    rw [live_sum_cons] at hsum
    rw [hl, hfs, ← ih]
    omega

/-! ### The power-of-two test `alignment & (alignment - 1)` -/

theorem land_eq_zero_iff (a b : Nat) :
    Nat.land a b = 0 ↔ ∀ i, ¬ (a.testBit i = true ∧ b.testBit i = true) := by
  have hland : Nat.land a b = a &&& b := rfl
  constructor
  · intro h i hcontra
    have h2 := congrArg (fun x => Nat.testBit x i) h
    simp only [hland, Nat.testBit_land, Nat.zero_testBit] at h2
    rw [hcontra.1, hcontra.2] at h2
    simp at h2
  · intro h
    apply Nat.eq_of_testBit_eq
    intro i
    rw [Nat.zero_testBit, hland, Nat.testBit_land]
    have := h i
    rcases hx : a.testBit i with _ | _ <;> rcases hy : b.testBit i with _ | _ <;> simp_all

theorem pow_two_land_pred (k : Nat) : Nat.land (2 ^ k) (2 ^ k - 1) = 0 := by
  apply Nat.eq_of_testBit_eq
  intro i
  rw [Nat.zero_testBit]
  show ((2 ^ k) &&& (2 ^ k - 1)).testBit i = false
  rw [Nat.testBit_land, Nat.testBit_two_pow, Nat.testBit_two_pow_sub_one]
  by_cases hik : k = i
  · subst hik
    simp
  · simp [hik]

theorem land_pred_eq_zero_iff (n : Nat) :
    Nat.land n (n - 1) = 0 ↔ (n = 0 ∨ ∃ k, n = 2 ^ k) := by
  constructor
  · induction n using Nat.strong_induction_on with
    | _ n ih =>
      intro h
      rcases Nat.eq_zero_or_pos n with rfl | hpos
      · exact Or.inl rfl
      rcases Nat.lt_or_ge n 2 with h2 | h2
      · right
        exact ⟨0, by omega⟩
      have hbits := (land_eq_zero_iff n (n - 1)).mp h
      rcases Nat.even_or_odd n with he | ho
      · obtain ⟨m, hm⟩ := he
        have hm2 : n / 2 = m := by omega
        have hm1 : 1 ≤ m := by omega
        have hml : Nat.land m (m - 1) = 0 := by
          apply (land_eq_zero_iff m (m - 1)).mpr
          intro i hc
          apply hbits (i + 1)
          have hd2 : (n - 1) / 2 = m - 1 := by omega
          constructor
          · rw [Nat.testBit_add_one, hm2]
            exact hc.1
          · rw [Nat.testBit_add_one, hd2]
            exact hc.2
        rcases ih m (by omega) hml with rfl | ⟨k, hk⟩
        · omega
        · right
          exact ⟨k + 1, by rw [pow_succ]; omega⟩
      · obtain ⟨m, hm⟩ := ho
        have hm1 : 1 ≤ m := by omega
        obtain ⟨j, hj⟩ := Nat.ne_zero_implies_bit_true (by omega : m ≠ 0)
        exfalso
        apply hbits (j + 1)
        have hd1 : n / 2 = m := by omega
        have hd2 : (n - 1) / 2 = m := by omega
        rw [Nat.testBit_add_one, Nat.testBit_add_one, hd1, hd2]
        exact ⟨hj, hj⟩
  · intro h
    rcases h with rfl | ⟨k, rfl⟩
    · rfl
    · exact pow_two_land_pred k

/-! ### Spec-side statement of the size normalization (for the refinement
claim about heap_alloc normalization and first-fit selection) -/

/-- The normalized request size exactly as the spec words it: add the
allocation-header size, raise to at least sizeof(free_heap_chunk), round up
to a multiple of sizeof(void *), and for nonzero alignment clamp the
alignment up to at least 16 and add it to the size.  Written from the
claim text, to be compared with `heap_norm_size` from the source. -/
def norm_size_spec (size alignment : Nat) : Nat :=
  let withHeader := size + sizeof_alloc_struct_begin
  let raised := max withHeader sizeof_free_heap_chunk
  let rounded := ROUNDUP raised sizeof_ptr
  if 0 < alignment then rounded + max alignment 16 else rounded

theorem clamp_eq_max (al : Nat) : (if al < 16 then 16 else al) = max al 16 := by
  rw [Nat.max_def]
  by_cases hlt : al < 16
  · rw [if_pos hlt, if_pos (by omega)]
  · rw [if_neg hlt]
    by_cases hle : al ≤ 16
    · rw [if_pos hle]
      omega
    · rw [if_neg hle]

theorem heap_norm_size_eq_spec (n al : Nat) :
    heap_norm_size n al = norm_size_spec n al := by
  simp only [heap_norm_size, norm_size_spec]
  have h1 : max (n + sizeof_alloc_struct_begin) sizeof_free_heap_chunk
      = (if n + sizeof_alloc_struct_begin < sizeof_free_heap_chunk then
          sizeof_free_heap_chunk else n + sizeof_alloc_struct_begin) := by
    rw [Nat.max_def]
    by_cases hlt : n + sizeof_alloc_struct_begin < sizeof_free_heap_chunk
    · rw [if_pos hlt, if_pos (by omega)]
    · rw [if_neg hlt]
      by_cases hle : n + sizeof_alloc_struct_begin ≤ sizeof_free_heap_chunk
      · rw [if_pos hle]
        omega
      · rw [if_neg hle]
  rw [h1, clamp_eq_max]

/-- Helper for single-chunk coalescing: inserting a chunk immediately
followed by the only chunk of the list merges them. -/
theorem heap_insert_single_adjacent (b s L : Nat) (hs : 0 < s) :
    heap_insert_free_chunk ⟨b, s⟩ [⟨b + s, L⟩] = [⟨b, s + L⟩] := by
  have hp : ¬ ((⟨b + s, L⟩ : free_heap_chunk).base ≤ (⟨b, s⟩ : free_heap_chunk).base) := by
    simp only []
    omega
  simp [heap_insert_free_chunk, List.takeWhile, List.dropWhile, hp, merge_with_next]

/-! ### The claims -/

/-- C1: after every sequence of completed heap_alloc / heap_free operations
from an initialized heap, the free list is in strictly ascending address
order, and no two consecutive free chunks are physically adjacent: each
chunk's base plus its len is strictly less than the next chunk's base. -/
theorem claim_C1 {h : Heap} {live : List alloc_struct_begin}
    (hr : Reachable h live) :
    List.Chain' (fun a b => a.base < b.base) h.freeList ∧
    List.Chain' (fun a b => a.base + a.len < b.base) h.freeList := by
  have inv := Reachable_HeapInv hr
  have hsep : h.freeList.Pairwise fun a b => a.base + a.len < b.base := inv.sep
  constructor
  · exact (hsep.imp fun hab => by omega).chain'
  · exact hsep.chain'

theorem claim_C1_witness :
    List.Chain' (fun a b => a.base < b.base) (heap_init 0 48).freeList ∧
    List.Chain' (fun a b => a.base + a.len < b.base) (heap_init 0 48).freeList :=
  claim_C1 (Reachable.init 0 48 (by norm_num))

/-- C2: in every state reachable by completed heap_alloc / heap_free
operations from a heap initialized over a region of length len, the sum of
the len fields of the free chunks plus the sum of the size fields of the
live allocation headers equals len. -/
theorem claim_C2 {h : Heap} {live : List alloc_struct_begin}
    (hr : Reachable h live) :
    free_list_sum h.freeList + live_sum live = h.len :=
  Reachable_sum hr

theorem claim_C2_witness :
    free_list_sum (heap_init 0 48).freeList + live_sum [] = (heap_init 0 48).len :=
  claim_C2 (Reachable.init 0 48 (by norm_num))

/-- C7: heap_alloc returns NULL exactly when the alignment argument is
nonzero and not a power of two, or no chunk of the free list is at least
the normalized size. -/
theorem claim_C7 (h : Heap) (n al : Nat) :
    (heap_alloc h n al).2 = none ↔
      ((al ≠ 0 ∧ ¬ ∃ k, al = 2 ^ k) ∨
        ∀ c ∈ h.freeList, c.len < heap_norm_size n al) := by
  rw [heap_alloc_isNone_iff]
  have hiff : Nat.land al (al - 1) ≠ 0 ↔ (al ≠ 0 ∧ ¬ ∃ k, al = 2 ^ k) := by
    rw [not_iff_comm]
    push_neg
    constructor
    · intro hor
      rcases Classical.em (al = 0) with rfl | hne
      · exact (land_pred_eq_zero_iff 0).mpr (Or.inl rfl)
      · exact (land_pred_eq_zero_iff al).mpr (Or.inr (hor hne))
    · intro hz hne
      rcases (land_pred_eq_zero_iff al).mp hz with rfl | hk
      · exact absurd rfl hne
      · exact hk
  rw [hiff]

/-- C9: a zero-size, zero-alignment request on a heap with a sufficiently
large free chunk is not declined: heap_alloc returns a non-null pointer. -/
theorem claim_C9 {h : Heap}
    (hex : ∃ c ∈ h.freeList, heap_norm_size 0 0 ≤ c.len) :
    ∃ p a, (heap_alloc h 0 0).2 = some (p, a) := by
  cases ho : (heap_alloc h 0 0).2 with
  | none =>
    rcases (heap_alloc_isNone_iff h 0 0).mp ho with hbad | hnofit
    · exact absurd rfl hbad
    · obtain ⟨c, hc, hle⟩ := hex
      exact absurd hle (by have := hnofit c hc; omega)
  | some p =>
    exact ⟨p.1, p.2, rfl⟩

theorem claim_C9_witness :
    ∃ p a, (heap_alloc (heap_init 0 48) 0 0).2 = some (p, a) :=
  claim_C9 ⟨⟨0, 48⟩, by rw [heap_init_freeList]; simp, by decide⟩

/-- C10: whenever heap_alloc returns NULL, the heap state is completely
unchanged: base, len and the whole free list are exactly as before. -/
theorem claim_C10 {h h' : Heap} {n al : Nat}
    (he : heap_alloc h n al = (h', none)) : h' = h :=
  (heap_alloc_none_spec he).1

theorem claim_C10_witness : Heap.mk 0 48 [⟨0, 48⟩] = heap_init 0 48 :=
  claim_C10 (show heap_alloc (heap_init 0 48) 3 48 =
    (Heap.mk 0 48 [⟨0, 48⟩], none) from rfl)

/-- C3: on a heap whose free list is a single chunk spanning the whole
region, any successful heap_alloc followed by heap_free of the returned
allocation restores the free list to exactly one chunk with the original
base and length. -/
theorem claim_C3 {h h' : Heap} {n al u : Nat} {a : alloc_struct_begin}
    (hfl : h.freeList = [⟨h.base, h.len⟩])
    (he : heap_alloc h n al = (h', some (u, a))) :
    heap_free a h'.freeList = [⟨h.base, h.len⟩] := by
  obtain ⟨-, l1, c, l2, hsplit, -, hbig, -, -, -, haptr, hcase, -⟩ :=
    heap_alloc_some_spec he
  rw [hfl] at hsplit
  have hdec : l1 = [] ∧ c = ⟨h.base, h.len⟩ ∧ l2 = [] := by
    cases l1 with
    | nil =>
      simp only [List.nil_append, List.cons.injEq] at hsplit
      exact ⟨rfl, hsplit.1.symm, hsplit.2.symm⟩
    | cons y ys =>
      simp only [List.cons_append, List.cons.injEq] at hsplit
      exact absurd hsplit.2.symm (by simp)
  obtain ⟨rfl, rfl, rfl⟩ := hdec
  have hns := heap_norm_size_lower n al
  rcases hcase with ⟨hsp, hfl2, hsz⟩ | ⟨hsp, hfl2, hsz⟩
  · -- split case: the remainder chunk sits right after the allocated span
    rw [heap_free, hfl2]
    simp only [List.nil_append]
    have hK : sizeof_free_heap_chunk = 12 := rfl
    have hins := heap_insert_single_adjacent h.base (heap_norm_size n al)
      ((⟨h.base, h.len⟩ : free_heap_chunk).len - heap_norm_size n al) (by omega)
    simp only [] at hins hsp hbig ⊢
    rw [haptr, hsz]
    rw [hins]
    have : heap_norm_size n al + (h.len - heap_norm_size n al) = h.len := by omega
    rw [this]
  · -- consume case: the free list became empty and the whole span returns
    rw [heap_free, hfl2]
    simp only [List.nil_append]
    rw [haptr, hsz]
    rfl

theorem claim_C3_witness :
    heap_free ⟨HEAP_MAGIC, 0, 20⟩ (Heap.mk 0 1024 [⟨20, 1004⟩]).freeList =
      [⟨(heap_init 0 1024).base, (heap_init 0 1024).len⟩] :=
  claim_C3 rfl
    (show heap_alloc (heap_init 0 1024) 8 0 =
      (Heap.mk 0 1024 [⟨20, 1004⟩], some (12, ⟨HEAP_MAGIC, 0, 20⟩)) from rfl)

/-- C4: for every alignment in {1, 2, 4, 8, 16, 32, 64, 128}, a non-null
heap_alloc result is a multiple of max(alignment, 16). -/
theorem claim_C4 {h h' : Heap} {n al u : Nat} {a : alloc_struct_begin}
    (hal : al ∈ [1, 2, 4, 8, 16, 32, 64, 128])
    (he : heap_alloc h n al = (h', some (u, a))) :
    u % max al 16 = 0 := by
  have h0 : 0 < al := by
    simp only [List.mem_cons, List.not_mem_nil, or_false] at hal
    rcases hal with rfl | rfl | rfl | rfl | rfl | rfl | rfl | rfl <;> omega
  obtain ⟨-, l1, c, l2, -, -, -, -, -, -, -, -, hu⟩ := heap_alloc_some_spec he
  rw [if_pos h0, clamp_eq_max] at hu
  rw [hu]
  exact ROUNDUP_mod_eq_zero _ _ (by omega)

theorem claim_C4_witness :
    (16 : Nat) % max 16 16 = 0 :=
  claim_C4 (by norm_num)
    (show heap_alloc (heap_init 0 1024) 8 16 =
      (Heap.mk 0 1024 [⟨36, 988⟩], some (16, ⟨HEAP_MAGIC, 0, 36⟩)) from rfl)

/-- C5: a successful heap_alloc selects, in free-list order, the first
chunk whose len is at least the normalized size, where the normalized size
is obtained by adding the header size, raising to sizeof(free_heap_chunk),
rounding up to a multiple of sizeof(void *), and adding the alignment
clamped up to 16 when it is nonzero (stated via `norm_size_spec`, written
from the spec text). -/
theorem claim_C5 {h h' : Heap} {n al u : Nat} {a : alloc_struct_begin}
    (he : heap_alloc h n al = (h', some (u, a))) :
    ∃ l1 c l2, h.freeList = l1 ++ c :: l2 ∧ a.ptr = c.base ∧
      (∀ d ∈ l1, d.len < norm_size_spec n al) ∧
      norm_size_spec n al ≤ c.len := by
  obtain ⟨-, l1, c, l2, hsplit, hsmall, hbig, -, -, -, haptr, -, -⟩ :=
    heap_alloc_some_spec he
  rw [heap_norm_size_eq_spec] at hsmall hbig
  exact ⟨l1, c, l2, hsplit, haptr, hsmall, hbig⟩

theorem claim_C5_witness :
    ∃ l1 c l2, (heap_init 0 1024).freeList = l1 ++ c :: l2 ∧
      (⟨HEAP_MAGIC, 0, 20⟩ : alloc_struct_begin).ptr = c.base ∧
      (∀ d ∈ l1, d.len < norm_size_spec 8 0) ∧
      norm_size_spec 8 0 ≤ c.len :=
  claim_C5 (show heap_alloc (heap_init 0 1024) 8 0 =
    (Heap.mk 0 1024 [⟨20, 1004⟩], some (12, ⟨HEAP_MAGIC, 0, 20⟩)) from rfl)

/-- C6: after selecting chunk c for a normalized size, heap_alloc either
carves a remainder chunk of length c.len minus the size at c.base plus the
size, placed exactly where c sat in the list, recording the size as the
span length, or consumes all of c and records c.len. -/
theorem claim_C6 {h h' : Heap} {n al u : Nat} {a : alloc_struct_begin}
    (he : heap_alloc h n al = (h', some (u, a))) :
    ∃ l1 c l2, h.freeList = l1 ++ c :: l2 ∧
      (∀ d ∈ l1, d.len < heap_norm_size n al) ∧
      heap_norm_size n al ≤ c.len ∧
      ((c.len > heap_norm_size n al + sizeof_free_heap_chunk ∧
         h'.freeList = l1 ++ ⟨c.base + heap_norm_size n al,
                              c.len - heap_norm_size n al⟩ :: l2 ∧
         a.size = heap_norm_size n al) ∨
       (c.len ≤ heap_norm_size n al + sizeof_free_heap_chunk ∧
         h'.freeList = l1 ++ l2 ∧ a.size = c.len)) := by
  obtain ⟨-, l1, c, l2, hsplit, hsmall, hbig, -, -, -, -, hcase, -⟩ :=
    heap_alloc_some_spec he
  refine ⟨l1, c, l2, hsplit, hsmall, hbig, ?_⟩
  rcases hcase with ⟨hsp, hfl, hsz⟩ | ⟨hsp, hfl, hsz⟩
  · exact Or.inl ⟨hsp, hfl, hsz⟩
  · exact Or.inr ⟨by omega, hfl, hsz⟩

theorem claim_C6_witness :
    ∃ l1 c l2, (heap_init 0 1024).freeList = l1 ++ c :: l2 ∧
      (∀ d ∈ l1, d.len < heap_norm_size 8 0) ∧
      heap_norm_size 8 0 ≤ c.len ∧
      ((c.len > heap_norm_size 8 0 + sizeof_free_heap_chunk ∧
         (Heap.mk 0 1024 [⟨20, 1004⟩]).freeList =
           l1 ++ ⟨c.base + heap_norm_size 8 0, c.len - heap_norm_size 8 0⟩ :: l2 ∧
         (⟨HEAP_MAGIC, 0, 20⟩ : alloc_struct_begin).size = heap_norm_size 8 0) ∨
       (c.len ≤ heap_norm_size 8 0 + sizeof_free_heap_chunk ∧
         (Heap.mk 0 1024 [⟨20, 1004⟩]).freeList = l1 ++ l2 ∧
         (⟨HEAP_MAGIC, 0, 20⟩ : alloc_struct_begin).size = c.len)) :=
  claim_C6 (show heap_alloc (heap_init 0 1024) 8 0 =
    (Heap.mk 0 1024 [⟨20, 1004⟩], some (12, ⟨HEAP_MAGIC, 0, 20⟩)) from rfl)

/-- C8: a successful allocation returns a user pointer at or after the span
base plus the allocation header, and the requested n bytes starting at the
user pointer fit inside the recorded span. -/
theorem claim_C8 {h h' : Heap} {n al u : Nat} {a : alloc_struct_begin}
    (he : heap_alloc h n al = (h', some (u, a))) :
    a.ptr + sizeof_alloc_struct_begin ≤ u ∧ u + n ≤ a.ptr + a.size := by
  obtain ⟨-, l1, c, l2, -, -, hbig, -, -, -, haptr, hcase, hu⟩ :=
    heap_alloc_some_spec he
  have hns := heap_norm_size_lower n al
  have hK : sizeof_free_heap_chunk = 12 := rfl
  have hA : sizeof_alloc_struct_begin = 12 := rfl
  have hsz : heap_norm_size n al ≤ a.size ∧ a.ptr = c.base := by
    rcases hcase with ⟨hsp, -, h1⟩ | ⟨hsp, -, h1⟩
    · exact ⟨by omega, haptr⟩
    · exact ⟨by omega, haptr⟩
  by_cases h0 : 0 < al
  · rw [if_pos h0] at hu
    have hcl16 : 16 ≤ (if al < 16 then 16 else al) := by
      by_cases hlt : al < 16
      · rw [if_pos hlt]
      · rw [if_neg hlt]
        omega
    have hlo := le_ROUNDUP (c.base + sizeof_alloc_struct_begin)
      (if al < 16 then 16 else al) (by omega)
    have hhi := ROUNDUP_le (c.base + sizeof_alloc_struct_begin)
      (if al < 16 then 16 else al)
    rw [if_pos h0] at hns
    omega
  · rw [if_neg h0] at hu
    rw [if_neg h0] at hns
    omega

theorem claim_C8_witness :
    (⟨HEAP_MAGIC, 0, 20⟩ : alloc_struct_begin).ptr + sizeof_alloc_struct_begin ≤ 12 ∧
    12 + 8 ≤ (⟨HEAP_MAGIC, 0, 20⟩ : alloc_struct_begin).ptr +
      (⟨HEAP_MAGIC, 0, 20⟩ : alloc_struct_begin).size :=
  claim_C8 (show heap_alloc (heap_init 0 1024) 8 0 =
    (Heap.mk 0 1024 [⟨20, 1004⟩], some (12, ⟨HEAP_MAGIC, 0, 20⟩)) from rfl)
